import Mathlib

set_option maxHeartbeats 1000000

namespace Audit

/-! Shallow embedding of src/baseline/create_baseline_audit.py.

Lines of the audit template are Lean `String`s; Python character-level
operations are modelled on `String.data : List Char`.  Fallible code
(a `sys.exit(exit=1)` path or an uncaught Python exception) is modelled
with `Except` / `Option`. -/

/-- Python whitespace (the ASCII range of the re module's whitespace class
and of str.strip): space, tab, newline, carriage return, vertical tab,
form feed. -/
def isPyWs (c : Char) : Bool :=
  c = ' ' || c = '\t' || c = '\n' || c = '\r' || c = '\x0b' || c = '\x0c'

/-- Drop a maximal run of leading whitespace characters. -/
def dropWs (l : List Char) : List Char := l.dropWhile isPyWs

/-- str.strip: remove leading and trailing whitespace. -/
def pyStrip (l : List Char) : List Char :=
  ((l.dropWhile isPyWs).reverse.dropWhile isPyWs).reverse

/-- Match a literal character sequence at the front; return the remaining
characters on success. -/
def matchLit : List Char → List Char → Option (List Char)
  | [], rest => some rest
  | _ :: _, [] => none
  | p :: ps, c :: cs => if c = p then matchLit ps cs else none

/-- True when every character is whitespace (used for trailing whitespace
before the end anchor of the line patterns). -/
def allWs (l : List Char) : Bool := l.all isPyWs

/-- regexes['econ']: a line that is exactly a closing condition tag,
with optional surrounding whitespace. -/
def econMatch (line : String) : Bool :=
  match matchLit "</condition".data (dropWs line.data) with
  | some r =>
    match dropWs r with
    | '>' :: r2 => allWs r2
    | _ => false
  | none => false

/-- regexes['scon']: a line that is exactly an opening condition tag with an
and/or type attribute.  The two quote characters around the operator are
each either kind and need not match each other, exactly as in the regex. -/
def sconMatch (line : String) : Bool :=
  match matchLit "<condition".data (dropWs line.data) with
  | some (c :: r1) =>
    if isPyWs c then
      match matchLit "type".data (dropWs r1) with
      | some r2 =>
        match dropWs r2 with
        | ':' :: r3 =>
          match dropWs r3 with
          | q :: r4 =>
            if q = '"' || q = '\'' then
              match (matchLit "and".data r4).orElse (fun _ => matchLit "or".data r4) with
              | some (q2 :: r5) =>
                if q2 = '"' || q2 = '\'' then
                  match dropWs r5 with
                  | '>' :: r6 => allWs r6
                  | _ => false
                else false
              | _ => false
            else false
          | _ => false
        | _ => false
      | none => false
    else false
  | _ => false

/-- The (item|custom_item) tag alternative followed by the closing angle
bracket; the two alternatives start with distinct characters, so the
regex alternation has no backtracking ambiguity. -/
def tagMatch (r : List Char) : Option (List Char) :=
  match matchLit "item>".data r with
  | some r2 => some r2
  | none => matchLit "custom_item>".data r

/-- regexes['sitem']: a line that is exactly an opening item or custom_item
tag, with optional surrounding whitespace. -/
def sitemMatch (line : String) : Bool :=
  match dropWs line.data with
  | '<' :: r =>
    match tagMatch r with
    | some r2 => allWs r2
    | none => false
  | _ => false

/-- regexes['eitem']: a line that is exactly a closing item or custom_item
tag, with optional surrounding whitespace. -/
def eitemMatch (line : String) : Bool :=
  match matchLit "</".data (dropWs line.data) with
  | some r =>
    match tagMatch r with
    | some r2 => allWs r2
    | none => false
  | none => false

/-- regexes['desc']: a line whose content after optional leading whitespace
is the word description, optional whitespace, and a colon; the rest of the
line is arbitrary. -/
def descMatch (line : String) : Bool :=
  match matchLit "description".data (dropWs line.data) with
  | some r =>
    match dropWs r with
    | ':' :: _ => true
    | _ => false
  | none => false

/-- The capture group of regexes['desc'] (used via findall(line)[0]): the
maximal run of leading whitespace of the line. -/
def leadingWs (line : String) : String := ⟨line.data.takeWhile isPyWs⟩

/-- str.split on a single separator character, no maxsplit: every
occurrence separates, empty pieces kept. -/
def pySplit (sep : Char) : List Char → List (List Char)
  | [] => [[]]
  | c :: cs =>
    if c = sep then [] :: pySplit sep cs
    else
      match pySplit sep cs with
      | g :: gs => (c :: g) :: gs
      | [] => [[c]]

/-- The value assigned on a description line, as computed on line 195 of
the source: join the colon-split pieces after the first back together with
colons, then strip whitespace. -/
def descValue (line : String) : String :=
  ⟨pyStrip (List.intercalate [':'] (pySplit ':' line.data).tail)⟩

/-- strip_quotes (source lines 141-146).  Returns none exactly where the
Python function raises an uncaught IndexError: when the stripped target is
empty, so that stripped[0] is out of bounds.  Otherwise: if the first
character is a quote of either kind and equals the last character, one
surrounding layer is removed. -/
def strip_quotes (target : String) : Option String :=
  match pyStrip target.data with
  | [] => none
  | c :: cs =>
    if (c = '"' || c = '\'') && (cs.getLastD c = c) then
      some ⟨cs.dropLast⟩
    else
      some ⟨c :: cs⟩

/-- The quoting rule applied to a pending known_good value at emission
(source lines 178-186).  none models the fatal display(value, exit=1)
branch taken when the value contains both quote kinds. -/
def quoteValue (known_good : String) : Option String :=
  if known_good.data.contains '"' && !known_good.data.contains '\'' then
    some ("'" ++ known_good ++ "'")
  else if !known_good.data.contains '"' && known_good.data.contains '\'' then
    some ("\"" ++ known_good ++ "\"")
  else if !known_good.data.contains '"' && !known_good.data.contains '\'' then
    some ("\"" ++ known_good ++ "\"")
  else
    none

/-- Classification of one template line, in the priority order of the
if/elif chain of apply_values_to_audit (source lines 167-194): condition
end, condition start, item start, item end, description, plain. -/
inductive LClass where
  | econ
  | scon
  | sitem
  | eitem
  | desc
  | plain
deriving DecidableEq, Repr

/-- Apply the five matchers in the order of the source's if/elif chain. -/
def classify (line : String) : LClass :=
  if econMatch line then .econ
  else if sconMatch line then .scon
  else if sitemMatch line then .sitem
  else if eitemMatch line then .eitem
  else if descMatch line then .desc
  else .plain

/-- The per-host, per-pass rewriter state of apply_values_to_audit
(source lines 161-164): in_condition, in_item, known_good, space. -/
structure RState where
  in_condition : Bool
  in_item : Bool
  known_good : String
  space : String
deriving DecidableEq, Repr

/-- The two ways the per-host rewrite loop can abort the process:
unquotable models display(value, exit=1) on a value holding both quote
kinds (source line 186); indexError models the uncaught IndexError
raised by strip_quotes on an empty normalized description value. -/
inductive RErr where
  | unquotable (value : String)
  | indexError
deriving DecidableEq, Repr

/-- The initial rewriter state for one host (source lines 161-164). -/
def initState : RState := ⟨false, false, "", ""⟩

/-- One iteration of the line loop of apply_values_to_audit (source lines
166-202) for one host: consume one line, return the new state and the
lines appended to audit_lines for this iteration (the line itself,
preceded by a synthesized known_good line when one is emitted).
vals is the values[host] mapping. -/
def step (vals : String → Option String) (st : RState) (line : String) :
    Except RErr (RState × List String) :=
  match classify line with
  | .econ => .ok ({ st with in_condition := false }, [line])
  | .scon => .ok ({ st with in_condition := true }, [line])
  | .sitem => .ok ({ st with in_item := true }, [line])
  | .eitem =>
    if st.known_good = "" then
      .ok ({ st with known_good := "", in_item := false }, [line])
    else
      match quoteValue st.known_good with
      | none => .error (.unquotable st.known_good)
      | some v =>
        .ok ({ st with known_good := "", in_item := false },
             [st.space ++ "known_good : " ++ v, line])
  | .desc =>
    match strip_quotes (descValue line) with
    | none => .error .indexError
    | some stripped =>
      match vals stripped with
      | some v => .ok ({ st with known_good := v, space := leadingWs line }, [line])
      | none => .ok (st, [line])
  | .plain => .ok (st, [line])

/-- Run the line loop from a given state, returning the final state and
the per-line output chunks (each chunk is what one iteration appended). -/
def runSt (vals : String → Option String) : RState → List String →
    Except RErr (RState × List (List String))
  | st, [] => .ok (st, [])
  | st, l :: ls =>
    match step vals st l with
    | .error e => .error e
    | .ok (st', ch) =>
      match runSt vals st' ls with
      | .error e => .error e
      | .ok (st2, cs) => .ok (st2, ch :: cs)

/-- The per-host body of apply_values_to_audit (source lines 160-204):
rewrite the template lines for one host, producing the output line
sequence, or aborting the run. -/
def applyHost (vals : String → Option String) (lines : List String) :
    Except RErr (List String) :=
  match runSt vals initState lines with
  | .error e => .error e
  | .ok (_, cs) => .ok cs.flatten

/-- A line has the shape of a synthesized known_good line: some
indentation, the known_good key, and a quoted value. -/
def IsKnownGoodLine (l : String) : Prop :=
  ∃ sp q, l = sp ++ "known_good : " ++ q

/-- The lookup a description line performs: normalize the assigned value
with strip_quotes and look the result up in the host's mapping.  none when
the normalization crashes or the key is absent. -/
def descKeyVal (vals : String → Option String) (l : String) : Option String :=
  match strip_quotes (descValue l) with
  | none => none
  | some s => vals s

/-- A line is a description line whose normalized value is a key of the
host's mapping. -/
def keyMatch (vals : String → Option String) (l : String) : Bool :=
  (classify l = .desc : Bool) && (descKeyVal vals l).isSome

/-! Extraction model: get_values_from_nessus (source lines 104-132).

XML parsing itself (ET.fromstring) is out of scope; the model starts from
the parsed tree.  The traversal in the source is fixed-depth — Report
elements, then ReportHost elements, then ReportItem elements, then the
items' direct children — so the tree is modelled at exactly that shape,
with findall modelled as the lists of the matching child elements.  The
try/except around the whole traversal turns every exception into
display(..., exit=1); the Except layer records which exception fired. -/

/-- The sentinel (source line 25). -/
def no_value : String := "__ObNoXiOuS_StRiNg_ThAt_ShOuLd_NoT_ExIsT__"

/-- A Python text node: ElementTree's .text is either None or a string. -/
inductive PyText where
  | none
  | str (s : String)
deriving DecidableEq, Repr

/-- A direct child of a ReportItem: its tag and its text. -/
structure RChild where
  tag : String
  text : PyText
deriving DecidableEq, Repr

/-- A ReportItem element: only its direct children are consumed. -/
structure RItem where
  children : List RChild
deriving DecidableEq, Repr

/-- A ReportHost element: its attributes and its ReportItem children. -/
structure RHost where
  attrib : List (String × String)
  items : List RItem
deriving DecidableEq, Repr

/-- A Report element: its ReportHost children. -/
structure NReport where
  hosts : List RHost
deriving DecidableEq, Repr

/-- The parsed scan-report tree: its Report children. -/
structure NTree where
  reports : List NReport
deriving DecidableEq, Repr

/-- The exceptions the extraction loop can raise (all are caught by the
blanket except clause and turn into exit(1)): missingAttribute models the
KeyError from host.attrib['name'] when the name attribute is absent;
noneText models the AttributeError from child.text.strip() when the check
name field's text is None. -/
inductive XErr where
  | missingAttribute
  | noneText
deriving DecidableEq, Repr

/-- Python substring membership test (pat in s): pat occurs contiguously
somewhere in s. -/
def containsSub (pat : List Char) : List Char → Bool
  | [] => (matchLit pat []).isSome
  | c :: cs => (matchLit pat (c :: cs)).isSome || containsSub pat cs

/-- Python dict attribute access pattern: look a key up in an attribute
list. -/
def lookupAttr (attrib : List (String × String)) (k : String) : Option String :=
  (attrib.find? (fun p => p.1 = k)).map (fun p => p.2)

/-- Python dict assignment d[k] = v: overwrite in place if the key is
present (insertion order kept), else append. -/
def upsert {α : Type} : List (String × α) → String → α → List (String × α)
  | [], k, v => [(k, v)]
  | (k', v') :: rest, k, v =>
    if k' = k then (k, v) :: rest else (k', v') :: upsert rest k v

/-- The inner child scan of one ReportItem (source lines 121-125):
description starts '', value starts as the sentinel; a check-name child
overwrites description with its stripped text (crashing if the text is
None), an actual-value child overwrites value with its text verbatim. -/
def scanChildren : List RChild → String × PyText → Except XErr (String × PyText)
  | [], acc => .ok acc
  | c :: cs, (d, v) =>
    if containsSub "compliance-check-name".data c.tag.data then
      match c.text with
      | .none => .error .noneText
      | .str s => scanChildren cs (⟨pyStrip s.data⟩, v)
    else if containsSub "compliance-actual-value".data c.tag.data then
      scanChildren cs (d, c.text)
    else
      scanChildren cs (d, v)

/-- The ReportItem loop of one host (source lines 118-127): an item
contributes an entry only if its description is non-empty and its value
differs from the sentinel. -/
def scanItems : List RItem → List (String × PyText) → Except XErr (List (String × PyText))
  | [], acc => .ok acc
  | it :: rest, acc =>
    match scanChildren it.children ("", .str no_value) with
    | .error e => .error e
    | .ok (d, v) =>
      if d ≠ "" ∧ v ≠ .str no_value then scanItems rest (upsert acc d v)
      else scanItems rest acc

/-- The ReportHost loop (source lines 113-127): read the name attribute
(KeyError if absent), start the host's table fresh, then scan its items. -/
def scanHosts : List RHost → List (String × List (String × PyText)) →
    Except XErr (List (String × List (String × PyText)))
  | [], acc => .ok acc
  | h :: rest, acc =>
    match lookupAttr h.attrib "name" with
    | Option.none => .error .missingAttribute
    | some hostname =>
      match scanItems h.items [] with
      | .error e => .error e
      | .ok hv => scanHosts rest (upsert acc hostname hv)

/-- The Report loop (source line 112). -/
def scanReports : List NReport → List (String × List (String × PyText)) →
    Except XErr (List (String × List (String × PyText)))
  | [], acc => .ok acc
  | r :: rest, acc =>
    match scanHosts r.hosts acc with
    | .error e => .error e
    | .ok acc' => scanReports rest acc'

/-- get_values_from_nessus for one parsed report tree (source lines
104-132): build the host → description → observed-value table, or abort
the run on the first exception. -/
def get_values_from_nessus (t : NTree) : Except XErr (List (String × List (String × PyText))) :=
  scanReports t.reports []

/-! Variant rewriter for the refinement claim C9: identical to step except
that condition tracking is removed — condition boundary lines are only
passed through and no in_condition flag exists.  This definition follows
the spec's words (section 4.3 and section 9) and is compared with the
source-derived step. -/

/-- Rewriter state without the condition-tracking flag. -/
structure NCState where
  in_item : Bool
  known_good : String
  space : String
deriving DecidableEq, Repr

/-- Forget the condition-tracking flag. -/
def eraseCond (st : RState) : NCState := ⟨st.in_item, st.known_good, st.space⟩

/-- One iteration of the rewriter with condition tracking removed:
condition-start and condition-end lines are emitted unchanged with no
state change; every other branch is as in step. -/
def stepNC (vals : String → Option String) (st : NCState) (line : String) :
    Except RErr (NCState × List String) :=
  match classify line with
  | .econ => .ok (st, [line])
  | .scon => .ok (st, [line])
  | .sitem => .ok ({ st with in_item := true }, [line])
  | .eitem =>
    if st.known_good = "" then
      .ok ({ st with known_good := "", in_item := false }, [line])
    else
      match quoteValue st.known_good with
      | none => .error (.unquotable st.known_good)
      | some v =>
        .ok ({ st with known_good := "", in_item := false },
             [st.space ++ "known_good : " ++ v, line])
  | .desc =>
    match strip_quotes (descValue line) with
    | none => .error .indexError
    | some stripped =>
      match vals stripped with
      | some v => .ok ({ st with known_good := v, space := leadingWs line }, [line])
      | none => .ok (st, [line])
  | .plain => .ok (st, [line])

/-- Run the condition-free rewriter. -/
def runNC (vals : String → Option String) : NCState → List String →
    Except RErr (NCState × List (List String))
  | st, [] => .ok (st, [])
  | st, l :: ls =>
    match stepNC vals st l with
    | .error e => .error e
    | .ok (st', ch) =>
      match runNC vals st' ls with
      | .error e => .error e
      | .ok (st2, cs) => .ok (st2, ch :: cs)

/-- Per-host rewrite with condition tracking removed. -/
def applyHostNC (vals : String → Option String) (lines : List String) :
    Except RErr (List String) :=
  match runNC vals ⟨false, "", ""⟩ lines with
  | .error e => .error e
  | .ok (_, cs) => .ok cs.flatten

/-- The evidence that makes a non-empty pending known_good value legal at
position pre.length: some description line in pre key-matches and no
item-end-classified line follows it in pre. -/
def KGprov (vals : String → Option String) (pre : List String) : Prop :=
  ∃ j, (∃ d, pre.get? j = some d ∧ keyMatch vals d = true) ∧
    ∀ k x, j < k → pre.get? k = some x → classify x ≠ .eitem

/-- Claim C1 formalized as stated: a chunk with an inserted line occurs
only at an item-end-classified line, and only when a key-matching
description line lies strictly after the most recent item-start line
(no item-start line between the matching description and the item end). -/
def C1Stated (vals : String → Option String) (lines : List String) : Prop :=
  ∀ st cs, runSt vals initState lines = .ok (st, cs) →
    ∀ i c, cs.get? i = some c → 1 < c.length →
      (∃ l, lines.get? i = some l ∧ classify l = LClass.eitem) ∧
      ∃ j, j < i ∧ (∃ d, lines.get? j = some d ∧ keyMatch vals d = true) ∧
        ∀ k x, j < k → k < i → lines.get? k = some x → classify x ≠ LClass.sitem

/-! Shape lemmas for step: one equation per branch of the if/elif chain. -/

theorem step_econ_eq {vals st l} (h : classify l = .econ) :
    step vals st l = .ok ({ st with in_condition := false }, [l]) := by
  simp [step, h]

theorem step_scon_eq {vals st l} (h : classify l = .scon) :
    step vals st l = .ok ({ st with in_condition := true }, [l]) := by
  simp [step, h]

theorem step_sitem_eq {vals st l} (h : classify l = .sitem) :
    step vals st l = .ok ({ st with in_item := true }, [l]) := by
  simp [step, h]

theorem step_plain_eq {vals st l} (h : classify l = .plain) :
    step vals st l = .ok (st, [l]) := by
  simp [step, h]

theorem step_eitem_empty {vals st l} (h : classify l = .eitem)
    (hkg : st.known_good = "") :
    step vals st l = .ok ({ st with known_good := "", in_item := false }, [l]) := by
  simp [step, h, hkg]

theorem step_eitem_pend {vals st l q} (h : classify l = .eitem)
    (hkg : ¬ st.known_good = "") (hq : quoteValue st.known_good = some q) :
    step vals st l = .ok ({ st with known_good := "", in_item := false },
      [st.space ++ "known_good : " ++ q, l]) := by
  simp [step, h, hkg, hq]

theorem step_eitem_err {vals st l} (h : classify l = .eitem)
    (hkg : ¬ st.known_good = "") (hq : quoteValue st.known_good = none) :
    step vals st l = .error (.unquotable st.known_good) := by
  simp [step, h, hkg, hq]

theorem step_desc_crash {vals st l} (h : classify l = .desc)
    (hsq : strip_quotes (descValue l) = none) :
    step vals st l = .error .indexError := by
  simp [step, h, hsq]

theorem step_desc_hit {vals st l s v} (h : classify l = .desc)
    (hsq : strip_quotes (descValue l) = some s) (hv : vals s = some v) :
    step vals st l = .ok ({ st with known_good := v, space := leadingWs l }, [l]) := by
  simp [step, h, hsq, hv]

theorem step_desc_miss {vals st l s} (h : classify l = .desc)
    (hsq : strip_quotes (descValue l) = some s) (hv : vals s = none) :
    step vals st l = .ok (st, [l]) := by
  simp [step, h, hsq, hv]

/-- Every successful step emits either the line alone, or a synthesized
known_good line followed by the line; the second form occurs only on an
item-end line with a non-empty quotable pending value. -/
theorem step_chunk {vals : String → Option String} {st l st' ch}
    (h : step vals st l = .ok (st', ch)) :
    ch = [l] ∨
      (classify l = .eitem ∧ ¬ st.known_good = "" ∧
        ∃ q, quoteValue st.known_good = some q ∧
          ch = [st.space ++ "known_good : " ++ q, l]) := by
  cases hc : classify l with
  | econ =>
    rw [step_econ_eq hc] at h
    simp only [Except.ok.injEq, Prod.mk.injEq] at h
    exact Or.inl h.2.symm
  | scon =>
    rw [step_scon_eq hc] at h
    simp only [Except.ok.injEq, Prod.mk.injEq] at h
    exact Or.inl h.2.symm
  | sitem =>
    rw [step_sitem_eq hc] at h
    simp only [Except.ok.injEq, Prod.mk.injEq] at h
    exact Or.inl h.2.symm
  | plain =>
    rw [step_plain_eq hc] at h
    simp only [Except.ok.injEq, Prod.mk.injEq] at h
    exact Or.inl h.2.symm
  | eitem =>
    by_cases hkg : st.known_good = ""
    · rw [step_eitem_empty hc hkg] at h
      simp only [Except.ok.injEq, Prod.mk.injEq] at h
      exact Or.inl h.2.symm
    · cases hq : quoteValue st.known_good with
      | none => rw [step_eitem_err hc hkg hq] at h; cases h
      | some q =>
        rw [step_eitem_pend hc hkg hq] at h
        simp only [Except.ok.injEq, Prod.mk.injEq] at h
        exact Or.inr ⟨rfl, hkg, q, rfl, h.2.symm⟩
  | desc =>
    cases hsq : strip_quotes (descValue l) with
    | none => rw [step_desc_crash hc hsq] at h; cases h
    | some s =>
      cases hv : vals s with
      | none =>
        rw [step_desc_miss hc hsq hv] at h
        simp only [Except.ok.injEq, Prod.mk.injEq] at h
        exact Or.inl h.2.symm
      | some v =>
        rw [step_desc_hit hc hsq hv] at h
        simp only [Except.ok.injEq, Prod.mk.injEq] at h
        exact Or.inl h.2.symm

/-- A step that emits more than one line is an item-end line consuming a
non-empty pending value. -/
theorem step_two {vals : String → Option String} {st l st' ch}
    (h : step vals st l = .ok (st', ch)) (hlen : 1 < ch.length) :
    classify l = .eitem ∧ ¬ st.known_good = "" := by
  rcases step_chunk h with h1 | ⟨hc, hkg, _⟩
  · subst h1; simp at hlen
  · exact ⟨hc, hkg⟩

/-! Composition lemmas for runSt. -/

theorem runSt_cons_ok {vals : String → Option String} {st x ls st2 cs} :
    runSt vals st (x :: ls) = .ok (st2, cs) ↔
      ∃ st1 ch cs', step vals st x = .ok (st1, ch) ∧
        runSt vals st1 ls = .ok (st2, cs') ∧ cs = ch :: cs' := by
  constructor
  · intro h
    cases h1 : step vals st x with
    | error e => simp only [runSt, h1] at h; cases h
    | ok p =>
      obtain ⟨st1, ch⟩ := p
      cases h2 : runSt vals st1 ls with
      | error e => simp only [runSt, h1, h2] at h; cases h
      | ok q =>
        obtain ⟨stq, csq⟩ := q
        simp only [runSt, h1, h2, Except.ok.injEq, Prod.mk.injEq] at h
        exact ⟨st1, ch, csq, rfl, by rw [h.1] at h2; exact h2, h.2.symm⟩
  · rintro ⟨st1, ch, cs', h1, h2, rfl⟩
    simp only [runSt, h1, h2]

theorem runSt_append_ok {vals : String → Option String} {st xs ys st2 cs} :
    runSt vals st (xs ++ ys) = .ok (st2, cs) ↔
      ∃ st1 c1 c2, runSt vals st xs = .ok (st1, c1) ∧
        runSt vals st1 ys = .ok (st2, c2) ∧ cs = c1 ++ c2 := by
  induction xs generalizing st cs with
  | nil =>
    constructor
    · intro h
      exact ⟨st, [], cs, rfl, h, rfl⟩
    · rintro ⟨st1, c1, c2, h0, h2, rfl⟩
      have h0' : Except.ok (ε := RErr) (st, ([] : List (List String))) = .ok (st1, c1) := h0
      simp only [Except.ok.injEq, Prod.mk.injEq] at h0'
      rw [← h0'.1] at h2
      rw [← h0'.2]
      simpa using h2
  | cons x xs ih =>
    constructor
    · intro h
      rw [List.cons_append] at h
      rcases runSt_cons_ok.mp h with ⟨stm, ch, cs', h1, h2, rfl⟩
      rcases ih.mp h2 with ⟨st1, c1, c2, ha, hb, rfl⟩
      exact ⟨st1, ch :: c1, c2, runSt_cons_ok.mpr ⟨stm, ch, c1, h1, ha, rfl⟩, hb, rfl⟩
    · rintro ⟨st1, c1, c2, h0, h2, rfl⟩
      rcases runSt_cons_ok.mp h0 with ⟨stm, ch, cs', h1, ha, rfl⟩
      rw [List.cons_append]
      exact runSt_cons_ok.mpr ⟨stm, ch, cs' ++ c2, h1, ih.mpr ⟨st1, cs', c2, ha, h2, rfl⟩, rfl⟩

theorem runSt_append_err {vals : String → Option String} {st xs ys st1 c1 e}
    (h1 : runSt vals st xs = .ok (st1, c1)) (h2 : runSt vals st1 ys = .error e) :
    runSt vals st (xs ++ ys) = .error e := by
  induction xs generalizing st c1 with
  | nil =>
    have h1' : Except.ok (ε := RErr) (st, ([] : List (List String))) = .ok (st1, c1) := h1
    simp only [Except.ok.injEq, Prod.mk.injEq] at h1'
    rw [← h1'.1] at h2
    simpa using h2
  | cons x xs ih =>
    rcases runSt_cons_ok.mp h1 with ⟨stm, ch, cs', hs, ha, rfl⟩
    rw [List.cons_append]
    simp only [runSt, hs, ih ha]

theorem runSt_length {vals : String → Option String} {st ls st' cs}
    (h : runSt vals st ls = .ok (st', cs)) : cs.length = ls.length := by
  induction ls generalizing st cs with
  | nil =>
    have h' : Except.ok (ε := RErr) (st, ([] : List (List String))) = .ok (st', cs) := h
    simp only [Except.ok.injEq, Prod.mk.injEq] at h'
    rw [← h'.2]
    rfl
  | cons x ls ih =>
    rcases runSt_cons_ok.mp h with ⟨st1, ch, cs', _, h2, rfl⟩
    simp [ih h2]

/-! Lemmas about keyMatch. -/

theorem keyMatch_false_none {vals : String → Option String} {l}
    (hc : classify l = .desc) (hk : keyMatch vals l = false) :
    descKeyVal vals l = none := by
  cases h : descKeyVal vals l with
  | none => rfl
  | some v => simp [keyMatch, hc, h] at hk

theorem keyMatch_true_elim {vals : String → Option String} {l}
    (hk : keyMatch vals l = true) :
    classify l = .desc ∧ ∃ s v, strip_quotes (descValue l) = some s ∧ vals s = some v := by
  simp only [keyMatch, Bool.and_eq_true, decide_eq_true_eq] at hk
  obtain ⟨hc, hs⟩ := hk
  refine ⟨hc, ?_⟩
  cases hsq : strip_quotes (descValue l) with
  | none => simp [descKeyVal, hsq] at hs
  | some s =>
    cases hv : vals s with
    | none => simp [descKeyVal, hsq, hv] at hs
    | some v => exact ⟨s, v, rfl, hv⟩

theorem keyMatch_true_intro {vals : String → Option String} {l s v}
    (hc : classify l = .desc) (hsq : strip_quotes (descValue l) = some s)
    (hv : vals s = some v) : keyMatch vals l = true := by
  simp [keyMatch, hc, descKeyVal, hsq, hv]

/-- A segment holding no item-end line and no key-matching description
line is copied verbatim and leaves the pending value and captured
indentation untouched. -/
theorem runSt_seg {vals : String → Option String} {seg : List String} {st st' : RState}
    {cs} (h1 : ∀ x ∈ seg, classify x ≠ .eitem)
    (h2 : ∀ x ∈ seg, keyMatch vals x = false)
    (h : runSt vals st seg = .ok (st', cs)) :
    st'.known_good = st.known_good ∧ st'.space = st.space ∧ cs.flatten = seg := by
  induction seg generalizing st cs with
  | nil =>
    have h' : Except.ok (ε := RErr) (st, ([] : List (List String))) = .ok (st', cs) := h
    simp only [Except.ok.injEq, Prod.mk.injEq] at h'
    obtain ⟨ha, hb⟩ := h'
    refine ⟨by rw [← ha], by rw [← ha], by rw [← hb]; rfl⟩
  | cons x xs ih =>
    rcases runSt_cons_ok.mp h with ⟨st1, ch, cs', hstep, hrest, rfl⟩
    have hcx : classify x ≠ LClass.eitem := h1 x (List.mem_cons_self x xs)
    have hkx : keyMatch vals x = false := h2 x (List.mem_cons_self x xs)
    obtain ⟨ikg, isp, ifl⟩ :=
      ih (fun y hy => h1 y (List.mem_cons_of_mem x hy))
        (fun y hy => h2 y (List.mem_cons_of_mem x hy)) hrest
    have hstp : st1.known_good = st.known_good ∧ st1.space = st.space ∧ ch = [x] := by
      cases hc : classify x with
      | econ =>
        rw [step_econ_eq hc] at hstep
        simp only [Except.ok.injEq, Prod.mk.injEq] at hstep
        obtain ⟨ha, hb⟩ := hstep
        exact ⟨by rw [← ha], by rw [← ha], hb.symm⟩
      | scon =>
        rw [step_scon_eq hc] at hstep
        simp only [Except.ok.injEq, Prod.mk.injEq] at hstep
        obtain ⟨ha, hb⟩ := hstep
        exact ⟨by rw [← ha], by rw [← ha], hb.symm⟩
      | sitem =>
        rw [step_sitem_eq hc] at hstep
        simp only [Except.ok.injEq, Prod.mk.injEq] at hstep
        obtain ⟨ha, hb⟩ := hstep
        exact ⟨by rw [← ha], by rw [← ha], hb.symm⟩
      | plain =>
        rw [step_plain_eq hc] at hstep
        simp only [Except.ok.injEq, Prod.mk.injEq] at hstep
        obtain ⟨ha, hb⟩ := hstep
        exact ⟨by rw [← ha], by rw [← ha], hb.symm⟩
      | eitem => exact absurd hc hcx
      | desc =>
        cases hsq : strip_quotes (descValue x) with
        | none => rw [step_desc_crash hc hsq] at hstep; cases hstep
        | some s =>
          cases hv : vals s with
          | some v =>
            rw [keyMatch_true_intro hc hsq hv] at hkx
            cases hkx
          | none =>
            rw [step_desc_miss hc hsq hv] at hstep
            simp only [Except.ok.injEq, Prod.mk.injEq] at hstep
            obtain ⟨ha, hb⟩ := hstep
            exact ⟨by rw [← ha], by rw [← ha], hb.symm⟩
    obtain ⟨ha, hb, rfl⟩ := hstp
    exact ⟨by rw [ikg, ha], by rw [isp, hb], by simp [ifl]⟩

/-- Every run's output contains the input lines as a sublist, and every
output line is an input line or a synthesized known_good line. -/
theorem runSt_sublist {vals : String → Option String} {st ls st' cs}
    (h : runSt vals st ls = .ok (st', cs)) :
    ls.Sublist cs.flatten ∧ ∀ l ∈ cs.flatten, l ∈ ls ∨ IsKnownGoodLine l := by
  induction ls generalizing st cs with
  | nil =>
    have h' : Except.ok (ε := RErr) (st, ([] : List (List String))) = .ok (st', cs) := h
    simp only [Except.ok.injEq, Prod.mk.injEq] at h'
    rw [← h'.2]
    exact ⟨List.Sublist.refl _, by intro l hl; cases hl⟩
  | cons x xs ih =>
    rcases runSt_cons_ok.mp h with ⟨st1, ch, cs', h1, h2, rfl⟩
    obtain ⟨ihs, ihm⟩ := ih h2
    rcases step_chunk h1 with rfl | ⟨_, _, q, hq, rfl⟩
    · constructor
      · simpa using ihs.cons₂ x
      · intro l hl
        simp only [List.flatten_cons, List.singleton_append, List.mem_cons] at hl
        rcases hl with rfl | hl
        · exact Or.inl (List.mem_cons_self _ _)
        · rcases ihm l hl with hin | hkg
          · exact Or.inl (List.mem_cons_of_mem x hin)
          · exact Or.inr hkg
    · constructor
      · have : (x :: xs).Sublist (x :: cs'.flatten) := ihs.cons₂ x
        simpa using this.cons (st.space ++ "known_good : " ++ q)
      · intro l hl
        simp only [List.flatten_cons, List.cons_append, List.nil_append,
          List.mem_cons] at hl
        rcases hl with rfl | hl
        · exact Or.inr ⟨st.space, q, rfl⟩
        · rcases hl with rfl | hl
          · exact Or.inl (List.mem_cons_self _ _)
          · rcases ihm l hl with hin | hkg
            · exact Or.inl (List.mem_cons_of_mem x hin)
            · exact Or.inr hkg

/-! Lemmas about KGprov, the provenance of a non-empty pending value. -/

theorem KGprov_extend {vals : String → Option String} {pre l}
    (h : KGprov vals pre) (hl : classify l ≠ LClass.eitem) :
    KGprov vals (pre ++ [l]) := by
  obtain ⟨j, ⟨d, hd, hkm⟩, hno⟩ := h
  have hj : j < pre.length := by
    by_contra hge
    push_neg at hge
    rw [List.get?_eq_none.mpr hge] at hd
    cases hd
  refine ⟨j, ⟨d, by rw [List.get?_append hj]; exact hd, hkm⟩, ?_⟩
  intro k x hjk hk
  by_cases hkp : k < pre.length
  · exact hno k x hjk (by rw [List.get?_append hkp] at hk; exact hk)
  · push_neg at hkp
    rw [List.get?_append_right hkp] at hk
    cases hkl : k - pre.length with
    | zero =>
      rw [hkl] at hk
      simp only [List.get?] at hk
      injection hk with hk
      rw [← hk]
      exact hl
    | succ m =>
      rw [hkl] at hk
      simp only [List.get?] at hk
      cases hk

theorem KGprov_new {vals : String → Option String} {pre : List String} {l}
    (hkm : keyMatch vals l = true) : KGprov vals (pre ++ [l]) := by
  refine ⟨pre.length, ⟨l, List.get?_concat_length pre l, hkm⟩, ?_⟩
  intro k x hjk hk
  have hge : pre.length + 1 ≤ k := hjk
  rw [List.get?_append_right (by omega)] at hk
  cases hkl : k - pre.length with
  | zero => omega
  | succ m =>
    rw [hkl] at hk
    simp only [List.get?] at hk
    cases hk

/-- If a run from the initial state ends with a non-empty pending value,
some processed line was a key-matching description line and no
item-end-classified line follows it. -/
theorem runSt_kg_prov {vals : String → Option String} {pre : List String} {st1 c1}
    (h : runSt vals initState pre = .ok (st1, c1)) (hkg : ¬ st1.known_good = "") :
    KGprov vals pre := by
  induction pre using List.reverseRecOn generalizing st1 c1 with
  | nil =>
    exfalso
    apply hkg
    have h' : Except.ok (ε := RErr) (initState, ([] : List (List String))) = .ok (st1, c1) := h
    simp only [Except.ok.injEq, Prod.mk.injEq] at h'
    rw [← h'.1]
    rfl
  | append_singleton pre l ih =>
    rcases runSt_append_ok.mp h with ⟨stm, cm, c2, hm, hl, rfl⟩
    rcases runSt_cons_ok.mp hl with ⟨stx, ch, cs', hstep, hnil, rfl⟩
    have hnil' : Except.ok (ε := RErr) (stx, ([] : List (List String))) = .ok (st1, cs') := hnil
    simp only [Except.ok.injEq, Prod.mk.injEq] at hnil'
    obtain ⟨hstx, -⟩ := hnil'
    rw [hstx] at hstep
    cases hc : classify l with
    | econ =>
      rw [step_econ_eq hc] at hstep
      simp only [Except.ok.injEq, Prod.mk.injEq] at hstep
      refine KGprov_extend (ih hm ?_) (by rw [hc]; intro hx; cases hx)
      rw [← hstep.1] at hkg
      exact hkg
    | scon =>
      rw [step_scon_eq hc] at hstep
      simp only [Except.ok.injEq, Prod.mk.injEq] at hstep
      refine KGprov_extend (ih hm ?_) (by rw [hc]; intro hx; cases hx)
      rw [← hstep.1] at hkg
      exact hkg
    | sitem =>
      rw [step_sitem_eq hc] at hstep
      simp only [Except.ok.injEq, Prod.mk.injEq] at hstep
      refine KGprov_extend (ih hm ?_) (by rw [hc]; intro hx; cases hx)
      rw [← hstep.1] at hkg
      exact hkg
    | plain =>
      rw [step_plain_eq hc] at hstep
      simp only [Except.ok.injEq, Prod.mk.injEq] at hstep
      refine KGprov_extend (ih hm ?_) (by rw [hc]; intro hx; cases hx)
      rw [← hstep.1] at hkg
      exact hkg
    | eitem =>
      exfalso
      apply hkg
      by_cases hkgm : stm.known_good = ""
      · rw [step_eitem_empty hc hkgm] at hstep
        simp only [Except.ok.injEq, Prod.mk.injEq] at hstep
        rw [← hstep.1]
      · cases hq : quoteValue stm.known_good with
        | none => rw [step_eitem_err hc hkgm hq] at hstep; cases hstep
        | some q =>
          rw [step_eitem_pend hc hkgm hq] at hstep
          simp only [Except.ok.injEq, Prod.mk.injEq] at hstep
          rw [← hstep.1]
    | desc =>
      cases hsq : strip_quotes (descValue l) with
      | none => rw [step_desc_crash hc hsq] at hstep; cases hstep
      | some s =>
        cases hv : vals s with
        | none =>
          rw [step_desc_miss hc hsq hv] at hstep
          simp only [Except.ok.injEq, Prod.mk.injEq] at hstep
          refine KGprov_extend (ih hm ?_) (by rw [hc]; intro hx; cases hx)
          rw [← hstep.1] at hkg
          exact hkg
        | some v => exact KGprov_new (keyMatch_true_intro hc hsq hv)

/-! Equivalence of the rewriter and its condition-free variant. -/

theorem stepNC_erase (vals : String → Option String) (st : RState) (l : String) :
    stepNC vals (eraseCond st) l =
      (step vals st l).map (fun p => (eraseCond p.1, p.2)) := by
  cases hc : classify l with
  | econ => rw [step_econ_eq hc]; simp only [stepNC, hc]; rfl
  | scon => rw [step_scon_eq hc]; simp only [stepNC, hc]; rfl
  | sitem => rw [step_sitem_eq hc]; simp only [stepNC, hc]; rfl
  | plain => rw [step_plain_eq hc]; simp only [stepNC, hc]; rfl
  | eitem =>
    by_cases hkg : st.known_good = ""
    · rw [step_eitem_empty hc hkg]
      simp only [stepNC, hc, eraseCond]
      rw [if_pos hkg]
      rfl
    · cases hq : quoteValue st.known_good with
      | none =>
        rw [step_eitem_err hc hkg hq]
        simp only [stepNC, hc, eraseCond]
        rw [if_neg hkg, hq]
        rfl
      | some q =>
        rw [step_eitem_pend hc hkg hq]
        simp only [stepNC, hc, eraseCond]
        rw [if_neg hkg, hq]
        rfl
  | desc =>
    cases hsq : strip_quotes (descValue l) with
    | none =>
      rw [step_desc_crash hc hsq]
      simp only [stepNC, hc, hsq]
      rfl
    | some s =>
      cases hv : vals s with
      | none =>
        rw [step_desc_miss hc hsq hv]
        simp only [stepNC, hc, hsq, hv]
        rfl
      | some v =>
        rw [step_desc_hit hc hsq hv]
        simp only [stepNC, hc, hsq, hv]
        rfl

theorem runNC_erase (vals : String → Option String) :
    ∀ (ls : List String) (st : RState),
      runNC vals (eraseCond st) ls =
        (runSt vals st ls).map (fun p => (eraseCond p.1, p.2)) := by
  intro ls
  induction ls with
  | nil => intro st; rfl
  | cons x xs ih =>
    intro st
    cases h1 : step vals st x with
    | error e => simp only [runNC, runSt, stepNC_erase, h1]; rfl
    | ok p =>
      obtain ⟨st1, ch⟩ := p
      cases h2 : runSt vals st1 xs with
      | error e =>
        simp only [runNC, runSt, stepNC_erase, h1, Except.map, ih, h2]
      | ok q =>
        simp only [runNC, runSt, stepNC_erase, h1, Except.map, ih, h2]

/-! Lemmas for the extraction model. -/

theorem scanHosts_err (acc : List (String × List (String × PyText)))
    {hs : List RHost} {h : RHost} (hh : h ∈ hs)
    (hattr : lookupAttr h.attrib "name" = Option.none) :
    ∃ e, scanHosts hs acc = .error e := by
  induction hs generalizing acc with
  | nil => cases hh
  | cons h0 rest ih =>
    rcases List.mem_cons.mp hh with rfl | hh'
    · exact ⟨.missingAttribute, by simp only [scanHosts, hattr]⟩
    · cases ha : lookupAttr h0.attrib "name" with
      | none => exact ⟨.missingAttribute, by simp only [scanHosts, ha]⟩
      | some hn =>
        cases hi : scanItems h0.items [] with
        | error e => exact ⟨e, by simp only [scanHosts, ha, hi]⟩
        | ok hv =>
          obtain ⟨e, he⟩ := ih (upsert acc hn hv) hh'
          exact ⟨e, by simp only [scanHosts, ha, hi]; exact he⟩

theorem scanReports_err (acc : List (String × List (String × PyText)))
    {rs : List NReport} {r : NReport} {h : RHost} (hr : r ∈ rs) (hh : h ∈ r.hosts)
    (hattr : lookupAttr h.attrib "name" = Option.none) :
    ∃ e, scanReports rs acc = .error e := by
  induction rs generalizing acc with
  | nil => cases hr
  | cons r0 rest ih =>
    rcases List.mem_cons.mp hr with rfl | hr'
    · obtain ⟨e, he⟩ := scanHosts_err acc hh hattr
      exact ⟨e, by simp only [scanReports, he]⟩
    · cases hsh : scanHosts r0.hosts acc with
      | error e => exact ⟨e, by simp only [scanReports, hsh]⟩
      | ok acc' =>
        obtain ⟨e, he⟩ := ih acc' hr'
        exact ⟨e, by simp only [scanReports, hsh]; exact he⟩

/-! The claim theorems. -/

/-- Claim C1, amended: a known_good line is emitted only in the position
immediately before an item-end-classified line, and only when a
description line whose normalized value is a key of the host's mapping
was processed after the most recent item-end line (not item-start line,
as the claim states) and before that item-end line.  The counterexample
below shows the as-stated version false: the pending value is not cleared
on item-start lines, only on item-end lines. -/
theorem C1_pending_provenance (vals : String → Option String) (lines : List String)
    (st : RState) (cs : List (List String)) (i : Nat) (c : List String)
    (h : runSt vals initState lines = .ok (st, cs))
    (hic : cs.get? i = some c) (hlen : 1 < c.length) :
    (∃ l, lines.get? i = some l ∧ classify l = LClass.eitem) ∧
    ∃ j, j < i ∧ (∃ d, lines.get? j = some d ∧ keyMatch vals d = true) ∧
      ∀ k x, j < k → k < i → lines.get? k = some x → classify x ≠ LClass.eitem := by
  have hcslen := runSt_length h
  have hi : i < lines.length := by
    by_contra hge
    push_neg at hge
    rw [List.get?_eq_none.mpr (by rw [hcslen]; exact hge)] at hic
    cases hic
  obtain ⟨pre, x, hx, hpre, hlines⟩ :
      ∃ pre x, lines.get? i = some x ∧ pre = lines.take i ∧
        lines = pre ++ x :: lines.drop (i + 1) := by
    refine ⟨lines.take i, lines.get ⟨i, hi⟩, List.get?_eq_get hi, rfl, ?_⟩
    conv_lhs => rw [← List.take_append_drop i lines]
    rw [List.drop_eq_getElem_cons hi]
    rfl
  rw [hlines] at h
  rcases runSt_append_ok.mp h with ⟨st1, c1, c2, h1, h2, hcs⟩
  subst hcs
  have hc1len : c1.length = i := by
    rw [runSt_length h1, hpre, List.length_take]
    omega
  rcases runSt_cons_ok.mp h2 with ⟨stx, ch, cs2, hstep, hrest, rfl⟩
  rw [List.get?_append_right (le_of_eq hc1len)] at hic
  rw [hc1len, Nat.sub_self] at hic
  simp only [List.get?] at hic
  injection hic with hcc
  rw [hcc] at hstep
  obtain ⟨hclx, hkgx⟩ := step_two hstep hlen
  have hprelen : pre.length = i := by
    rw [hpre, List.length_take]
    omega
  obtain ⟨j, ⟨d, hd, hkm⟩, hno⟩ := runSt_kg_prov h1 hkgx
  have hj : j < pre.length := by
    by_contra hge
    push_neg at hge
    rw [List.get?_eq_none.mpr hge] at hd
    cases hd
  have hji : j < i := by omega
  have hjd : lines.get? j = some d := by
    rw [hpre] at hd
    rw [← List.get?_take hji]
    exact hd
  refine ⟨⟨x, hx, hclx⟩, j, hji, ⟨d, hjd, hkm⟩, ?_⟩
  intro k y hjk hki hky
  apply hno k y hjk
  rw [hpre, List.get?_take hki]
  exact hky

/-- Witness for C1: on a template whose single item holds a matching
description, the inserted chunk at index 2 satisfies the amended
invariant. -/
theorem C1_pending_provenance_witness :
    (∃ l, (["<item>", "description : DW1", "</item>"] : List String).get? 2 = some l ∧
        classify l = LClass.eitem) ∧
    ∃ j, j < 2 ∧
      (∃ d, (["<item>", "description : DW1", "</item>"] : List String).get? j = some d ∧
        keyMatch (fun s => if s = "DW1" then some "vw1" else none) d = true) ∧
      ∀ k x, j < k → k < 2 →
        (["<item>", "description : DW1", "</item>"] : List String).get? k = some x →
        classify x ≠ LClass.eitem :=
  C1_pending_provenance (fun s => if s = "DW1" then some "vw1" else none)
    ["<item>", "description : DW1", "</item>"] ⟨false, false, "", ""⟩
    [["<item>"], ["description : DW1"], ["known_good : \"vw1\"", "</item>"]] 2
    ["known_good : \"vw1\"", "</item>"] (by rfl) (by rfl) (by decide)

/-- Counterexample for C1 as stated: a description line matched before the
item-start line still causes an emission at the item end, although no
key-matching description occurs after the most recent item-start line. -/
theorem C1_counterexample :
    ¬ C1Stated (fun s => if s = "DC1" then some "vc1" else none)
        ["description : DC1", "<item>", "</item>"] := by
  intro hcl
  obtain ⟨-, j, hj, ⟨d, hd, hkm⟩, hno⟩ :=
    hcl ⟨false, false, "", ""⟩
      [["description : DC1"], ["<item>"], ["known_good : \"vc1\"", "</item>"]]
      rfl 2 ["known_good : \"vc1\"", "</item>"] rfl (by decide)
  have hj01 : j = 0 ∨ j = 1 := by omega
  rcases hj01 with rfl | rfl
  · exact hno 1 "<item>" (by decide) (by decide) rfl (by decide)
  · rw [show (["description : DC1", "<item>", "</item>"] : List String).get? 1 =
        some "<item>" from rfl] at hd
    injection hd with hd
    rw [← hd] at hkm
    exact absurd hkm (by decide)

/-- Claim C2: attempting to emit a known_good line for a pending value
containing both a double quote and a single quote is fatal: the run
terminates with the unquotable error and no output document is
produced. -/
theorem C2_unquotable_fatal (vals : String → Option String) (pre : List String)
    (line : String) (post : List String) (st1 : RState) (c1 : List (List String))
    (hpre : runSt vals initState pre = .ok (st1, c1))
    (hcl : classify line = LClass.eitem)
    (hd : st1.known_good.data.contains '"' = true)
    (hs : st1.known_good.data.contains '\'' = true) :
    applyHost vals (pre ++ line :: post) = .error (.unquotable st1.known_good) := by
  have hne : ¬ st1.known_good = "" := by
    intro h0
    rw [h0] at hd
    exact absurd hd (by decide)
  have hd' : '"' ∈ st1.known_good.data := by simpa using hd
  have hs' : '\'' ∈ st1.known_good.data := by simpa using hs
  have hq : quoteValue st1.known_good = none := by
    simp [quoteValue, hd', hs']
  have hrun : runSt vals st1 (line :: post) = .error (.unquotable st1.known_good) := by
    simp only [runSt, step_eitem_err hcl hne hq]
  have hall := runSt_append_err hpre hrun
  simp only [applyHost, hall]

/-- Witness for C2, the spec's quote-collision scenario: the observed
value holds both quote kinds and the run aborts with the unquotable
error. -/
theorem C2_unquotable_fatal_witness :
    applyHost (fun s => if s = "K" then some "it's \"quoted\"" else none)
        (["<item>", "  description : K"] ++ "</item>" :: []) =
      .error (.unquotable "it's \"quoted\"") :=
  C2_unquotable_fatal (fun s => if s = "K" then some "it's \"quoted\"" else none)
    ["<item>", "  description : K"] "</item>" []
    ⟨false, true, "it's \"quoted\"", "  "⟩ [["<item>"], ["  description : K"]]
    (by rfl) (by decide) (by decide) (by decide)

/-- Claim C4: the spec's concrete scenario, rewriting the three-line
template for host1 with value Enabled yields exactly the four expected
lines. -/
theorem C4_concrete_scenario :
    applyHost (fun s => if s = "Ensure X is enabled" then some "Enabled" else none)
        ["<item>", "  description : \"Ensure X is enabled\"", "</item>"] =
      .ok ["<item>", "  description : \"Ensure X is enabled\"",
        "  known_good : \"Enabled\"", "</item>"] := by
  rfl

/-- Claim C5: every input line appears unchanged and in order in a
produced output (the input is a sublist of the output), and every output
line is either an input line or a synthesized known_good line. -/
theorem C5_no_data_loss (vals : String → Option String) (lines out : List String)
    (h : applyHost vals lines = .ok out) :
    lines.Sublist out ∧ ∀ l ∈ out, l ∈ lines ∨ IsKnownGoodLine l := by
  cases hr : runSt vals initState lines with
  | error e => simp only [applyHost, hr] at h; cases h
  | ok p =>
    obtain ⟨stf, cs⟩ := p
    simp only [applyHost, hr, Except.ok.injEq] at h
    subst h
    exact runSt_sublist hr

/-- Witness for C5 on a small template with one plain line and one
qualifying item. -/
theorem C5_no_data_loss_witness :
    (["text line", "<item>", "  description : D5", "</item>"] : List String).Sublist
        ["text line", "<item>", "  description : D5", "  known_good : \"v5\"", "</item>"] ∧
    ∀ l ∈ (["text line", "<item>", "  description : D5", "  known_good : \"v5\"",
        "</item>"] : List String),
      l ∈ (["text line", "<item>", "  description : D5", "</item>"] : List String) ∨
        IsKnownGoodLine l :=
  C5_no_data_loss (fun s => if s = "D5" then some "v5" else none)
    ["text line", "<item>", "  description : D5", "</item>"]
    ["text line", "<item>", "  description : D5", "  known_good : \"v5\"", "</item>"]
    (by rfl)

/-- Claim C6, amended: processing an item-start line sets the in-item
flag and leaves the pending known-good value and the captured
indentation unchanged (the source does not clear them there; they are
cleared only at item-end lines).  The counterexample below refutes the
claim as stated. -/
theorem C6_item_start_keeps_pending (vals : String → Option String) (st : RState)
    (l : String) (h : classify l = LClass.sitem) :
    step vals st l = .ok (⟨st.in_condition, true, st.known_good, st.space⟩, [l]) :=
  step_sitem_eq h

/-- Witness for C6 (amended) at a state with a non-empty pending value. -/
theorem C6_item_start_keeps_pending_witness :
    step (fun _ => none) ⟨false, false, "pending", "  "⟩ "<item>" =
      .ok (⟨false, true, "pending", "  "⟩, ["<item>"]) :=
  C6_item_start_keeps_pending (fun _ => none) ⟨false, false, "pending", "  "⟩
    "<item>" (by decide)

/-- Counterexample for C6 as stated: after consuming the item-start line
the pending value is still v6, not empty, and the description matched
before the item-start produces an insertion inside the newly opened
item. -/
theorem C6_counterexample :
    runSt (fun s => if s = "D6" then some "v6" else none) initState
        ["description : D6", "<item>"] =
      .ok (⟨false, true, "v6", ""⟩, [["description : D6"], ["<item>"]]) ∧
    applyHost (fun s => if s = "D6" then some "v6" else none)
        ["description : D6", "<item>", "</item>"] =
      .ok ["description : D6", "<item>", "known_good : \"v6\"", "</item>"] :=
  ⟨rfl, rfl⟩

/-- Claim C7: a value holding a double quote and no single quote is
emitted wrapped in single quotes, and the quote-stripping normalization
applied to the emitted literal yields back the original value. -/
theorem C7_quoting_roundtrip (v : String) (hd : v.data.contains '"' = true)
    (hs : v.data.contains '\'' = false) :
    quoteValue v = some ("'" ++ v ++ "'") ∧
      strip_quotes ("'" ++ v ++ "'") = some v := by
  have hd' : '"' ∈ v.data := by simpa using hd
  have hs' : '\'' ∉ v.data := by simpa using hs
  refine ⟨by simp [quoteValue, hd', hs'], ?_⟩
  have hdata : ("'" ++ v ++ "'").data = '\'' :: (v.data ++ ['\'']) := by
    rw [String.data_append, String.data_append]
    rfl
  have key : ∀ l : List Char, List.dropWhile isPyWs ('\'' :: l) = '\'' :: l := by
    intro l
    rw [List.dropWhile_cons, if_neg (by decide)]
  have hps : pyStrip (("'" ++ v ++ "'").data) = '\'' :: (v.data ++ ['\'']) := by
    rw [hdata]
    unfold pyStrip
    rw [key]
    have hrev1 : ('\'' :: (v.data ++ ['\''])).reverse = '\'' :: (v.data.reverse ++ ['\'']) := by
      simp
    rw [hrev1, key]
    simp
  simp only [strip_quotes, hps]
  split
  · rw [List.dropLast_concat]
  · rename_i hcond
    exfalso
    apply hcond
    rw [List.getLastD_concat]
    simp

/-- Witness for C7 at a concrete double-quoted value. -/
theorem C7_quoting_roundtrip_witness :
    quoteValue "say \"hi\"" = some ("'" ++ "say \"hi\"" ++ "'") ∧
      strip_quotes ("'" ++ "say \"hi\"" ++ "'") = some "say \"hi\"" :=
  C7_quoting_roundtrip "say \"hi\"" (by decide) (by decide)

/-- Claim C10: the quote-stripping normalization is undefined on the
empty string (the source indexes stripped[0] of an empty string), so a
description line whose assigned value is empty crashes the run with the
index error rather than passing the line through or reporting a
documented fatal error kind. -/
theorem C10_strip_quotes_partial :
    strip_quotes "" = none ∧
      applyHost (fun _ => none) ["description :"] = .error .indexError :=
  ⟨rfl, rfl⟩

/-- Claim C3, amended: for an item region containing exactly one
key-matching description line, whose mapped value is non-empty, if the
rewrite completes, the output contains the region verbatim with exactly
one inserted known_good line, immediately before the item-end line,
indented with the description line's leading whitespace.  The
counterexample below shows the as-stated version false when the mapped
value is the empty string (the source uses the empty string itself as
the no-pending-value sentinel, so no line is inserted). -/
theorem C3_exactly_one_insertion (vals : String → Option String)
    (pre mid1 mid2 post : List String) (s d e v : String) (out : List String)
    (hrun : applyHost vals (pre ++ s :: ((mid1 ++ d :: mid2) ++ e :: post)) = .ok out)
    (hs : classify s = LClass.sitem) (he : classify e = LClass.eitem)
    (hne : ∀ x ∈ mid1 ++ d :: mid2, classify x ≠ LClass.eitem)
    (hd : keyMatch vals d = true)
    (hdv : descKeyVal vals d = some v) (hv : ¬ v = "")
    (hm1 : ∀ x ∈ mid1, keyMatch vals x = false)
    (hm2 : ∀ x ∈ mid2, keyMatch vals x = false) :
    ∃ out1 out2 q, quoteValue v = some q ∧
      out = out1 ++ (s :: ((mid1 ++ (d :: mid2)) ++
        ((leadingWs d ++ "known_good : " ++ q) :: (e :: out2)))) := by
  cases hr : runSt vals initState (pre ++ s :: ((mid1 ++ d :: mid2) ++ e :: post)) with
  | error er => simp only [applyHost, hr] at hrun; cases hrun
  | ok p =>
    obtain ⟨stf, cs⟩ := p
    simp only [applyHost, hr, Except.ok.injEq] at hrun
    subst hrun
    rcases runSt_append_ok.mp hr with ⟨st0, c0, crest, h0, hrest, rfl⟩
    rcases runSt_cons_ok.mp hrest with ⟨st1, chs, crest2, hstep_s, hrest2, rfl⟩
    rw [step_sitem_eq hs] at hstep_s
    simp only [Except.ok.injEq, Prod.mk.injEq] at hstep_s
    obtain ⟨hst1, hchs⟩ := hstep_s
    rcases runSt_append_ok.mp hrest2 with ⟨st2, cm, crest3, hmid, hrest3, rfl⟩
    rcases runSt_append_ok.mp hmid with ⟨stA, cA, cdm, hA, hdm, rfl⟩
    obtain ⟨hAkg, hAsp, hAflat⟩ :=
      runSt_seg (fun x hx => hne x (List.mem_append_left _ hx)) hm1 hA
    rcases runSt_cons_ok.mp hdm with ⟨stB, chd, cm2r, hstep_d, hm2run, rfl⟩
    obtain ⟨hcd, s0, v0, hsq0, hv0⟩ := keyMatch_true_elim hd
    have hvv : vals s0 = some v := by
      have hdkv : descKeyVal vals d = vals s0 := by simp [descKeyVal, hsq0]
      rw [hdkv] at hdv
      exact hdv
    rw [step_desc_hit hcd hsq0 hvv] at hstep_d
    simp only [Except.ok.injEq, Prod.mk.injEq] at hstep_d
    obtain ⟨hstB, hchd⟩ := hstep_d
    obtain ⟨hBkg, hBsp, hBflat⟩ :=
      runSt_seg
        (fun x hx => hne x (List.mem_append_right _ (List.mem_cons_of_mem d hx)))
        hm2 hm2run
    have h2kg : st2.known_good = v := by rw [hBkg, ← hstB]
    have h2sp : st2.space = leadingWs d := by rw [hBsp, ← hstB]
    rcases runSt_cons_ok.mp hrest3 with ⟨stE, che, cpost, hstep_e, hpostrun, rfl⟩
    have h2ne : ¬ st2.known_good = "" := by rw [h2kg]; exact hv
    cases hq : quoteValue st2.known_good with
    | none => rw [step_eitem_err he h2ne hq] at hstep_e; cases hstep_e
    | some q =>
      rw [step_eitem_pend he h2ne hq] at hstep_e
      simp only [Except.ok.injEq, Prod.mk.injEq] at hstep_e
      obtain ⟨hstE, hche⟩ := hstep_e
      refine ⟨c0.flatten, cpost.flatten, q, by rw [← h2kg]; exact hq, ?_⟩
      rw [← hchs, ← hchd, ← hche, h2sp]
      simp [List.flatten_append, List.flatten_cons, hAflat, hBflat, List.append_assoc]

/-- Witness for C3 (amended) on a template with a surrounding plain line,
an extra non-matching line inside the item, and a trailing line. -/
theorem C3_exactly_one_insertion_witness :
    ∃ out1 out2 q, quoteValue "v3" = some q ∧
      (["x", "<item>", "  description : D3W", "check : none",
        "  known_good : \"v3\"", "</item>", "tail"] : List String) =
        out1 ++ ("<item>" :: ((([] : List String) ++ ("  description : D3W" :: ["check : none"])) ++
          ((leadingWs "  description : D3W" ++ "known_good : " ++ q) :: ("</item>" :: out2)))) :=
  C3_exactly_one_insertion (fun s0 => if s0 = "D3W" then some "v3" else none)
    ["x"] [] ["check : none"] ["tail"] "<item>" "  description : D3W" "</item>" "v3"
    ["x", "<item>", "  description : D3W", "check : none",
      "  known_good : \"v3\"", "</item>", "tail"]
    (by rfl) (by decide) (by decide) (by decide) (by decide) (by rfl) (by decide)
    (by decide) (by decide)

/-- Counterexample for C3 as stated: the item below contains exactly one
description line whose normalized text is a key of the mapping, but the
mapped value is the empty string, and the rewritten output contains no
inserted known_good line at all. -/
theorem C3_counterexample :
    applyHost (fun s0 => if s0 = "D3" then some "" else none)
        ["<item>", "description : D3", "</item>"] =
      .ok ["<item>", "description : D3", "</item>"] ∧
    keyMatch (fun s0 => if s0 = "D3" then some "" else none) "description : D3" = true ∧
    descKeyVal (fun s0 => if s0 = "D3" then some "" else none) "description : D3" = some "" ∧
    classify "<item>" = LClass.sitem ∧ classify "</item>" = LClass.eitem ∧
    ∀ l ∈ (["<item>", "description : D3", "</item>"] : List String),
      ¬ IsKnownGoodLine l := by
  have hk : ∀ l, IsKnownGoodLine l → 'k' ∈ l.data := by
    rintro l ⟨sp, q, rfl⟩
    rw [String.data_append, String.data_append]
    refine List.mem_append_left _ (List.mem_append_right _ ?_)
    decide
  refine ⟨rfl, by decide, rfl, by decide, by decide, ?_⟩
  intro l hl hkg
  have hkmem := hk l hkg
  simp only [List.mem_cons, List.not_mem_nil, or_false] at hl
  rcases hl with rfl | rfl | rfl
  · exact absurd hkmem (by decide)
  · exact absurd hkmem (by decide)
  · exact absurd hkmem (by decide)

/-- Claim C8: a host record without its name attribute makes extraction
fatal: the whole run errors out and no value table is returned. -/
theorem C8_missing_name_fatal (t : NTree) (r : NReport) (h : RHost)
    (hr : r ∈ t.reports) (hh : h ∈ r.hosts)
    (hattr : lookupAttr h.attrib "name" = Option.none) :
    ∃ e, get_values_from_nessus t = .error e :=
  scanReports_err [] hr hh hattr

/-- Witness for C8: a tree holding one report with one host record that
has no attributes. -/
theorem C8_missing_name_fatal_witness :
    ∃ e, get_values_from_nessus ⟨[⟨[⟨[], []⟩]⟩]⟩ = .error e :=
  C8_missing_name_fatal ⟨[⟨[⟨[], []⟩]⟩]⟩ ⟨[⟨[], []⟩]⟩ ⟨[], []⟩
    (by simp) (by simp) (by rfl)

/-- Claim C9: the condition-tracking flag does not influence the output:
the rewriter agrees with the variant that has condition tracking removed
(condition boundary lines only passed through) on every template and
host mapping. -/
theorem C9_condition_tracking_irrelevant (vals : String → Option String)
    (lines : List String) :
    applyHostNC vals lines = applyHost vals lines := by
  have hrun := runNC_erase vals lines initState
  simp only [applyHostNC, applyHost]
  rw [show (⟨false, "", ""⟩ : NCState) = eraseCond initState from rfl, hrun]
  cases runSt vals initState lines with
  | error e => rfl
  | ok p => rfl

end Audit
